import Mathlib

/-!
Shallow embedding of the cthash SHA-2 streaming hasher
(`src/include/cthash/hasher.hpp`).

Machine words of width `w` bits are modelled as `Nat` reduced modulo `2 ^ w`
wherever the C++ arithmetic wraps; bytes are `Nat` values below 256; the
per-variant compile-time `Config` template parameter becomes an explicit
`Config` structure argument.
-/

namespace cthash

/-- Rotate-right of `x` viewed as an unsigned integer of `w` bits,
mirroring `std::rotr` as the hasher uses it. -/
def rotr (w : Nat) (x : Nat) (n : Nat) : Nat :=
  ((x >>> (n % w)) ||| (x <<< (w - n % w))) % 2 ^ w

/-- Big-endian encoding `unwrap_bigendian_number<T>::operator=`: the assignment
writes `nbytes` bytes into the referenced span, byte `i` being
`static_cast<byte>(value >> ((bits - 8) - 8*i))`, i.e. most significant first. -/
def unwrap_bigendian_number (nbytes : Nat) (value : Nat) : List Nat :=
  (List.range nbytes).map fun i => (value >>> ((nbytes - 1 - i) * 8)) % 256

/-- Big-endian decoding `cast_from_bytes<T>`: or-combination of
`in[i] << ((sizeof(T) - 1 - i) * 8)` over all byte indices. -/
def cast_from_bytes (nbytes : Nat) (bs : List Nat) : Nat :=
  (List.range nbytes).foldl (fun acc i => acc ||| (bs.getD i 0 <<< ((nbytes - 1 - i) * 8))) 0

/-- Per-variant constant table: the `Config` template parameter of
`internal_hasher` together with the word width it fixes
(`sizeof(state_item_t) = sizeof(staging_item_t) = word_bytes` and
`sizeof(length_type) = length_bytes`). -/
structure Config where
  word_bytes : Nat
  block_bits : Nat
  digest_length : Nat
  rounds_number : Nat
  initial_values : List Nat
  constants : List Nat
  staging_constants : List Nat
  compress_constants : List Nat
  length_size_bits : Nat
  length_bytes : Nat
  values_for_output : Nat

/-- Derived quantity `block_size_bytes = config.block_bits / 8`. -/
def Config.block_size_bytes (cfg : Config) : Nat := cfg.block_bits / 8

/-- Width in bits of one state/staging word. -/
def Config.word_bits (cfg : Config) : Nat := 8 * cfg.word_bytes

/-- Derived quantity `staging_size = config.constants.size()`. -/
def Config.staging_size (cfg : Config) : Nat := cfg.constants.length

/-- Derived quantity `first_part_size = block_size_bytes / sizeof(staging_item_t)`. -/
def Config.first_part_size (cfg : Config) : Nat := cfg.block_size_bytes / cfg.word_bytes

/-- Modulus of the `length_type` counter: `2 ^ (8 * sizeof(length_type))`. -/
def Config.length_mod (cfg : Config) : Nat := 2 ^ (8 * cfg.length_bytes)

/-- Mutable state of `internal_hasher`: running hash words, raw byte counter,
block buffer and number of buffered bytes. -/
structure HState where
  hash : List Nat
  total_length : Nat
  block : List Nat
  block_used : Nat

/-- The default constructor `internal_hasher()`: state words from
`config.initial_values`, `total_length = 0`, `block_used = 0` (the block
buffer contents are never read before being written; zeros stand in). -/
def internal_hasher_init (cfg : Config) : HState :=
  { hash := cfg.initial_values
    total_length := 0
    block := List.replicate cfg.block_size_bytes 0
    block_used := 0 }

/-- The right-hand side `w[i-16] + s0 + w[i-7] + s1` of the expansion
assignment in `build_staging`, with `s0`/`s1` as in the source and the sum
wrapping at the word width. -/
def staging_value (cfg : Config) (w : List Nat) (i : Nat) : Nat :=
  let w15 := w.getD (i - 15) 0
  let w2 := w.getD (i - 2) 0
  let s0 := rotr cfg.word_bits w15 (cfg.staging_constants.getD 0 0) ^^^
            rotr cfg.word_bits w15 (cfg.staging_constants.getD 1 0) ^^^
            (w15 >>> cfg.staging_constants.getD 2 0)
  let s1 := rotr cfg.word_bits w2 (cfg.staging_constants.getD 3 0) ^^^
            rotr cfg.word_bits w2 (cfg.staging_constants.getD 4 0) ^^^
            (w2 >>> cfg.staging_constants.getD 5 0)
  (w.getD (i - 16) 0 + s0 + w.getD (i - 7) 0 + s1) % 2 ^ cfg.word_bits

/-- One iteration of the second `build_staging` loop: given the staging prefix
`w` of length `i`, append the expanded word for index `i`. -/
def staging_expand (cfg : Config) (w : List Nat) (i : Nat) : List Nat :=
  w ++ [staging_value cfg w i]

/-- The message scheduler `internal_hasher::build_staging`: decode the block
into `first_part_size` big-endian words, then expand up to `staging_size`. -/
def build_staging (cfg : Config) (chunk : List Nat) : List Nat :=
  let first := (List.range cfg.first_part_size).map fun i =>
    cast_from_bytes cfg.word_bytes ((chunk.drop (i * cfg.word_bytes)).take cfg.word_bytes)
  (List.range' cfg.first_part_size (cfg.staging_size - cfg.first_part_size)).foldl
    (staging_expand cfg) first

/-- One iteration of the loop in `internal_hasher::rounds` over the working
variables `[a, b, c, d, e, f, g, h]` (given as a list in that order), with
the schedule word `wi` and the round constant `ki`. -/
def compress_step (cfg : Config) (wi ki : Nat) (v : List Nat) : List Nat :=
  let a := v.getD 0 0
  let b := v.getD 1 0
  let c := v.getD 2 0
  let d := v.getD 3 0
  let e := v.getD 4 0
  let f := v.getD 5 0
  let g := v.getD 6 0
  let h := v.getD 7 0
  let S1 := rotr cfg.word_bits e (cfg.compress_constants.getD 0 0) ^^^
            rotr cfg.word_bits e (cfg.compress_constants.getD 1 0) ^^^
            rotr cfg.word_bits e (cfg.compress_constants.getD 2 0)
  let choice := (e &&& f) ^^^ (((2 ^ cfg.word_bits - 1) ^^^ e) &&& g)
  let temp1 := (h + S1 + choice + ki + wi) % 2 ^ cfg.word_bits
  let S0 := rotr cfg.word_bits a (cfg.compress_constants.getD 3 0) ^^^
            rotr cfg.word_bits a (cfg.compress_constants.getD 4 0) ^^^
            rotr cfg.word_bits a (cfg.compress_constants.getD 5 0)
  let majority := (a &&& b) ^^^ (a &&& c) ^^^ (b &&& c)
  let temp2 := (S0 + majority) % 2 ^ cfg.word_bits
  [(temp1 + temp2) % 2 ^ cfg.word_bits, a, b, c, (d + temp1) % 2 ^ cfg.word_bits, e, f, g]

/-- The compression function `internal_hasher::rounds`: iterate
`compress_step` for `rounds_number` rounds starting from a copy of the state,
then add the working variables back onto the state (feed-forward). -/
def rounds (cfg : Config) (w : List Nat) (state : List Nat) : List Nat :=
  let wvar := (List.range cfg.rounds_number).foldl
    (fun v i => compress_step cfg (w.getD i 0) (cfg.constants.getD i 0) v) state
  (List.range state.length).map fun j =>
    (state.getD j 0 + wvar.getD j 0) % 2 ^ cfg.word_bits

/-- The call `byte_copy(data.begin(), data.end(), block.begin() + offset)`:
overwrite `data.length` bytes of `block` starting at `offset`, casting every
element to a byte. -/
def byte_copy (block : List Nat) (offset : Nat) (data : List Nat) : List Nat :=
  (List.range block.length).map fun i =>
    if offset ≤ i ∧ i - offset < data.length then data.getD (i - offset) 0 % 256
    else block.getD i 0

/-- The streaming accumulator `internal_hasher::update_to_buffer_and_process`:
copy input into the free tail of the block buffer; when the buffer is filled
exactly, compress it, reset `block_used`, and continue with the rest.
The hypothesis `hc` reflects that every instantiated variant has a nonempty
block; without it the C++ loop would not terminate either. -/
def update_to_buffer_and_process (cfg : Config) (hc : 0 < cfg.block_size_bytes)
    (s : HState) (input : List Nat) : HState :=
  if input.length < cfg.block_size_bytes - s.block_used then
    { s with block := byte_copy s.block s.block_used input
             total_length := (s.total_length + input.length) % cfg.length_mod
             block_used := s.block_used + input.length }
  else
    update_to_buffer_and_process cfg hc
      { hash := rounds cfg (build_staging cfg (byte_copy s.block s.block_used
          (input.take (cfg.block_size_bytes - s.block_used)))) s.hash
        total_length := (s.total_length +
          (input.take (cfg.block_size_bytes - s.block_used)).length) % cfg.length_mod
        block := byte_copy s.block s.block_used
          (input.take (cfg.block_size_bytes - s.block_used))
        block_used := 0 }
      (input.drop (cfg.block_size_bytes - s.block_used))
termination_by input.length * 2 + (if cfg.block_size_bytes - s.block_used = 0 then 1 else 0)
decreasing_by
  simp only [List.length_drop]
  split <;> split <;> omega

/-- The padding step of `internal_hasher::finalize_buffer`: a `0x80` byte
right after the buffered data, zeros up to the end of the block. -/
def pad_block (cfg : Config) (blk : List Nat) (used : Nat) : List Nat :=
  blk.take used ++ 128 :: List.replicate (cfg.block_size_bytes - used - 1) 0

/-- The trailing-length step of `internal_hasher::finalize_buffer`:
`unwrap_bigendian_number{span(block).last<sizeof(length_t)>()} = total_length * 8`,
the multiplication wrapping in `length_type`. -/
def write_length (cfg : Config) (b : List Nat) (total : Nat) : List Nat :=
  b.take (b.length - cfg.length_bytes) ++
    unwrap_bigendian_number cfg.length_bytes ((total * 8) % cfg.length_mod)

/-- The finalizer `internal_hasher::finalize_buffer`: pad the current block;
if the free space cannot hold the terminator plus the length field, compress
the padded block and start from an all-zero block; write the bit length
big-endian over the last `sizeof(length_type)` bytes; compress. -/
def finalize_buffer (cfg : Config) (s : HState) : HState :=
  let padded := pad_block cfg s.block s.block_used
  if cfg.block_size_bytes - s.block_used < 1 + cfg.length_size_bits / 8 then
    let hash1 := rounds cfg (build_staging cfg padded) s.hash
    let final_block := write_length cfg (List.replicate cfg.block_size_bytes 0) s.total_length
    { s with hash := rounds cfg (build_staging cfg final_block) hash1
             block := final_block }
  else
    let final_block := write_length cfg padded s.total_length
    { s with hash := rounds cfg (build_staging cfg final_block) s.hash
             block := final_block }

/-- The result serializer `internal_hasher::write_result_into`: the first
`values_for_output` state words, each written big-endian. -/
def write_result_into (cfg : Config) (hash : List Nat) : List Nat :=
  ((List.range cfg.values_for_output).map fun i =>
    unwrap_bigendian_number cfg.word_bytes (hash.getD i 0)).flatten

/-- The member `hasher::size()`, returning `total_length`. -/
def hasher_size (s : HState) : Nat := s.total_length

/-- The member `hasher::final()`: finalize, then serialize the digest. -/
def final_digest (cfg : Config) (s : HState) : List Nat :=
  write_result_into cfg (finalize_buffer cfg s).hash

/-- A whole session at the `hasher` boundary: fresh construction followed by
one `update` per element of `inputs`. -/
def run_updates (cfg : Config) (hc : 0 < cfg.block_size_bytes)
    (inputs : List (List Nat)) : HState :=
  inputs.foldl (update_to_buffer_and_process cfg hc) (internal_hasher_init cfg)

/-- The `update` overload for string literals: a `CharT(&)[N]` array is
forwarded as `span(lit, std::size(lit) - 1)`, dropping the final element
(the implicit terminator). -/
def update_literal (cfg : Config) (hc : 0 < cfg.block_size_bytes)
    (s : HState) (lit : List Nat) : HState :=
  update_to_buffer_and_process cfg hc s (lit.take (lit.length - 1))

/-- Modelled from the spec: the SHA-256 per-variant `Config` table. The
constant catalog (`value.hpp` and the variant headers) is outside `src/`;
section 4.1 of the spec fixes it as the published SHA-2 constant data, which
these values are. -/
def sha256_config : Config :=
  { word_bytes := 4
    block_bits := 512
    digest_length := 32
    rounds_number := 64
    initial_values := [
      1779033703, 3144134277, 1013904242, 2773480762,
      1359893119, 2600822924, 528734635, 1541459225]
    constants := [
      1116352408, 1899447441, 3049323471, 3921009573, 961987163,
      1508970993, 2453635748, 2870763221, 3624381080, 310598401,
      607225278, 1426881987, 1925078388, 2162078206, 2614888103,
      3248222580, 3835390401, 4022224774, 264347078, 604807628,
      770255983, 1249150122, 1555081692, 1996064986, 2554220882,
      2821834349, 2952996808, 3210313671, 3336571891, 3584528711,
      113926993, 338241895, 666307205, 773529912, 1294757372,
      1396182291, 1695183700, 1986661051, 2177026350, 2456956037,
      2730485921, 2820302411, 3259730800, 3345764771, 3516065817,
      3600352804, 4094571909, 275423344, 430227734, 506948616,
      659060556, 883997877, 958139571, 1322822218, 1537002063,
      1747873779, 1955562222, 2024104815, 2227730452, 2361852424,
      2428436474, 2756734187, 3204031479, 3329325298]
    staging_constants := [7, 18, 3, 17, 19, 10]
    compress_constants := [6, 11, 25, 2, 13, 22]
    length_size_bits := 64
    length_bytes := 8
    values_for_output := 8 }

/-- Positivity of the SHA-256 block size, discharging the termination-side
hypothesis of the accumulator at this variant. -/
theorem sha256_bs_pos : 0 < sha256_config.block_size_bytes := by decide


/-- Or-accumulating folds split off their initial accumulator. -/
theorem foldl_lor_init (g : Nat → Nat) (l : List Nat) (init : Nat) :
    l.foldl (fun acc x => acc ||| g x) init = init ||| l.foldl (fun acc x => acc ||| g x) 0 := by
  induction l generalizing init with
  | nil => simp
  | cons x xs ih =>
    simp only [List.foldl_cons]
    rw [ih (init ||| g x), ih (0 ||| g x)]
    simp [Nat.lor_assoc]

/-- Folds agree when the folded functions agree on the list elements. -/
theorem foldl_congr_fn {α β : Type} (l : List β) (f g : α → β → α) (init : α)
    (h : ∀ a x, x ∈ l → f a x = g a x) : l.foldl f init = l.foldl g init := by
  induction l generalizing init with
  | nil => rfl
  | cons x xs ih =>
    simp only [List.foldl_cons]
    rw [h init x (by simp)]
    exact ih _ fun a y hy => h a y (by simp [hy])

/-- Head/tail decomposition of the big-endian decoder. -/
theorem cast_from_bytes_cons (n b : Nat) (bs : List Nat) :
    cast_from_bytes (n + 1) (b :: bs) = (b <<< (n * 8)) ||| cast_from_bytes n bs := by
  unfold cast_from_bytes
  rw [List.range_succ_eq_map]
  simp only [List.foldl_cons, List.foldl_map, List.getD_cons_zero,
    List.getD_cons_succ, Nat.add_sub_cancel, Nat.sub_zero, Nat.zero_or]
  rw [foldl_lor_init]
  congr 1
  apply foldl_congr_fn
  intro a i hi
  have : n - Nat.succ i = n - 1 - i := by omega
  rw [this]

/-- Head/tail decomposition of the big-endian encoder. -/
theorem unwrap_succ (n v : Nat) :
    unwrap_bigendian_number (n + 1) v = ((v >>> (n * 8)) % 256) :: unwrap_bigendian_number n v := by
  unfold unwrap_bigendian_number
  rw [List.range_succ_eq_map]
  simp only [List.map_cons, List.map_map, Nat.add_sub_cancel, Nat.sub_zero]
  congr 1
  apply List.map_congr_left
  intro i hi
  simp only [Function.comp_apply]
  have : n - Nat.succ i = n - 1 - i := by omega
  rw [this]

/-- Dropping high bits of the value does not change bytes below them. -/
theorem shiftRight_mod_pow_mod (v s m : Nat) (h : s + 8 ≤ m) :
    ((v % 2 ^ m) >>> s) % 256 = (v >>> s) % 256 := by
  rw [Nat.shiftRight_eq_div_pow, Nat.shiftRight_eq_div_pow]
  rw [show (2:Nat) ^ m = 2 ^ s * 2 ^ (m - s) from by rw [← pow_add]; congr 1; omega]
  rw [Nat.mod_mul_right_div_self]
  have hd : (256 : Nat) ∣ 2 ^ (m - s) := by
    have h8 : (2:Nat) ^ 8 ∣ 2 ^ (m - s) := pow_dvd_pow 2 (by omega)
    simpa using h8
  rw [Nat.mod_mod_of_dvd _ hd]

/-- The encoder only looks at the low `n * 8` bits. -/
theorem unwrap_mod (n v m : Nat) (h : n * 8 ≤ m) :
    unwrap_bigendian_number n (v % 2 ^ m) = unwrap_bigendian_number n v := by
  unfold unwrap_bigendian_number
  apply List.map_congr_left
  intro i hi
  rw [List.mem_range] at hi
  exact shiftRight_mod_pow_mod v ((n - 1 - i) * 8) m (by omega)

/-- Decoding an encoded value of any byte width returns the value. -/
theorem cast_unwrap : ∀ (n v : Nat), v < 2 ^ (n * 8) →
    cast_from_bytes n (unwrap_bigendian_number n v) = v := by
  intro n
  induction n with
  | zero =>
    intro v hv
    have : v = 0 := by simpa using hv
    subst this
    rfl
  | succ n ih =>
    intro v hv
    rw [unwrap_succ, cast_from_bytes_cons]
    have hpos : 0 < 2 ^ (n * 8) := Nat.pos_pow_of_pos _ (by omega)
    rw [show unwrap_bigendian_number n v = unwrap_bigendian_number n (v % 2 ^ (n * 8)) from
      (unwrap_mod n v (n * 8) le_rfl).symm]
    rw [ih (v % 2 ^ (n * 8)) (Nat.mod_lt _ hpos)]
    have hb : (v >>> (n * 8)) % 256 = v >>> (n * 8) := by
      apply Nat.mod_eq_of_lt
      rw [Nat.shiftRight_eq_div_pow]
      apply Nat.div_lt_of_lt_mul
      calc v < 2 ^ ((n + 1) * 8) := hv
        _ = 2 ^ (n * 8) * 256 := by
            rw [show (n + 1) * 8 = n * 8 + 8 from by ring, pow_add]
            norm_num
    rw [hb, Nat.shiftLeft_eq, mul_comm]
    rw [← Nat.mul_add_lt_is_or (Nat.mod_lt _ hpos)]
    rw [Nat.shiftRight_eq_div_pow]
    exact Nat.div_add_mod v (2 ^ (n * 8))



/-- C7: byte/word codec round-trip. For each supported word width (32 and 64
bits) and every representable value of that width, decoding
(`cast_from_bytes`) the big-endian byte window produced by encoding the value
(`unwrap_bigendian_number`) returns the value. -/
theorem codec_roundtrip (v : Nat) :
    (v < 2 ^ 32 → cast_from_bytes 4 (unwrap_bigendian_number 4 v) = v) ∧
    (v < 2 ^ 64 → cast_from_bytes 8 (unwrap_bigendian_number 8 v) = v) :=
  ⟨fun h => cast_unwrap 4 v (by simpa using h), fun h => cast_unwrap 8 v (by simpa using h)⟩

/-- Witness for C7: the round-trip at value 0 (width 32) and at the maximum
64-bit value. -/
theorem codec_roundtrip_witness :
    cast_from_bytes 4 (unwrap_bigendian_number 4 0) = 0 ∧
    cast_from_bytes 8 (unwrap_bigendian_number 8 18446744073709551615) = 18446744073709551615 :=
  ⟨(codec_roundtrip 0).1 (by norm_num), (codec_roundtrip 18446744073709551615).2 (by norm_num)⟩

/-- Copying never changes the buffer length. -/
theorem byte_copy_length (blk : List Nat) (off : Nat) (data : List Nat) :
    (byte_copy blk off data).length = blk.length := by
  simp [byte_copy]

/-- Pointwise description of `byte_copy`. -/
theorem byte_copy_getD (blk : List Nat) (off : Nat) (data : List Nat) (i : Nat)
    (h : i < blk.length) :
    (byte_copy blk off data).getD i 0 =
      if off ≤ i ∧ i - off < data.length then data.getD (i - off) 0 % 256
      else blk.getD i 0 := by
  unfold byte_copy
  rw [List.getD_eq_getElem _ _ (by simpa using h)]
  simp [List.getElem_map, List.getElem_range]

/-- Copying nothing leaves the buffer unchanged. -/
theorem byte_copy_nil (blk : List Nat) (off : Nat) : byte_copy blk off [] = blk := by
  apply List.ext_getElem (by simp [byte_copy_length])
  intro n h1 h2
  rw [← List.getD_eq_getElem _ 0 h1, byte_copy_getD _ _ _ _ (by simpa [byte_copy_length] using h1)]
  have hneg : ¬ (off ≤ n ∧ n - off < ([] : List Nat).length) := by simp
  rw [if_neg hneg]
  exact List.getD_eq_getElem _ _ h2

/-- Positivity of the `length_type` modulus. -/
theorem length_mod_pos (cfg : Config) : 0 < cfg.length_mod :=
  Nat.pos_pow_of_pos _ (by norm_num)

/-- Copying a concatenation equals two successive copies at advancing offsets. -/
theorem byte_copy_append (blk : List Nat) (off : Nat) (xs ys : List Nat) :
    byte_copy blk off (xs ++ ys) = byte_copy (byte_copy blk off xs) (off + xs.length) ys := by
  apply List.ext_getElem (by simp [byte_copy_length])
  intro n h1 h2
  have hb : n < blk.length := by simpa [byte_copy_length] using h1
  rw [← List.getD_eq_getElem _ 0 h1, ← List.getD_eq_getElem _ 0 h2]
  rw [byte_copy_getD _ _ _ _ hb, byte_copy_getD _ _ _ _ (by simpa [byte_copy_length] using hb),
    byte_copy_getD _ _ _ _ hb]
  simp only [List.length_append]
  split_ifs with hA hB hC hB hC
  · rw [List.getD_append_right _ _ _ _ (by omega)]
    have : n - off - xs.length = n - (off + xs.length) := by omega
    rw [this]
  · rw [List.getD_append _ _ _ _ (by omega)]
  · omega
  · omega
  · omega
  · rfl

/-- Branch equation of the accumulator: the input fits in the free space. -/
theorem update_fill (cfg : Config) (hc : 0 < cfg.block_size_bytes) (s : HState)
    (input : List Nat) (h : input.length < cfg.block_size_bytes - s.block_used) :
    update_to_buffer_and_process cfg hc s input =
      { s with block := byte_copy s.block s.block_used input
               total_length := (s.total_length + input.length) % cfg.length_mod
               block_used := s.block_used + input.length } := by
  rw [update_to_buffer_and_process]
  simp only [if_pos h]

/-- Branch equation of the accumulator: the input fills the block, which is
compressed before continuing. -/
theorem update_flush (cfg : Config) (hc : 0 < cfg.block_size_bytes) (s : HState)
    (input : List Nat) (h : ¬ input.length < cfg.block_size_bytes - s.block_used) :
    update_to_buffer_and_process cfg hc s input =
      update_to_buffer_and_process cfg hc
        { hash := rounds cfg (build_staging cfg (byte_copy s.block s.block_used
                    (input.take (cfg.block_size_bytes - s.block_used)))) s.hash
          total_length := (s.total_length +
            (input.take (cfg.block_size_bytes - s.block_used)).length) % cfg.length_mod
          block := byte_copy s.block s.block_used
                    (input.take (cfg.block_size_bytes - s.block_used))
          block_used := 0 }
        (input.drop (cfg.block_size_bytes - s.block_used)) := by
  rw [update_to_buffer_and_process]
  simp only [if_neg h]

/-- The accumulator adds exactly the input length to the byte counter,
wrapping in `length_type`. -/
theorem update_total (cfg : Config) (hc : 0 < cfg.block_size_bytes) (s : HState)
    (input : List Nat) :
    (update_to_buffer_and_process cfg hc s input).total_length =
      (s.total_length + input.length) % cfg.length_mod := by
  induction s, input using update_to_buffer_and_process.induct cfg hc with
  | case1 s input h =>
    rw [update_fill cfg hc s input h]
  | case2 s input h ih =>
    rw [update_flush cfg hc s input h]
    rw [ih]
    simp only [List.length_take, List.length_drop, Nat.mod_add_mod]
    congr 1
    omega

/-- The accumulator's result always keeps `block_used` strictly below the
block size. -/
theorem update_block_used_lt (cfg : Config) (hc : 0 < cfg.block_size_bytes) (s : HState)
    (input : List Nat) :
    (update_to_buffer_and_process cfg hc s input).block_used < cfg.block_size_bytes := by
  induction s, input using update_to_buffer_and_process.induct cfg hc with
  | case1 s input h =>
    rw [update_fill cfg hc s input h]
    simp only []
    omega
  | case2 s input h ih =>
    rw [update_flush cfg hc s input h]
    exact ih

/-- The accumulator preserves the length of the block buffer. -/
theorem update_block_length (cfg : Config) (hc : 0 < cfg.block_size_bytes) (s : HState)
    (input : List Nat) :
    (update_to_buffer_and_process cfg hc s input).block.length = s.block.length := by
  induction s, input using update_to_buffer_and_process.induct cfg hc with
  | case1 s input h =>
    rw [update_fill cfg hc s input h]
    exact byte_copy_length _ _ _
  | case2 s input h ih =>
    rw [update_flush cfg hc s input h]
    rw [ih]
    exact byte_copy_length _ _ _

/-- The byte counter stays below the `length_type` modulus. -/
theorem update_total_lt (cfg : Config) (hc : 0 < cfg.block_size_bytes) (s : HState)
    (input : List Nat) :
    (update_to_buffer_and_process cfg hc s input).total_length < cfg.length_mod := by
  rw [update_total]
  exact Nat.mod_lt _ (length_mod_pos cfg)



/-- Folding updates over a call sequence accumulates the summed input
lengths modulo the `length_type` modulus. -/
theorem foldl_update_total (cfg : Config) (hc : 0 < cfg.block_size_bytes) :
    ∀ (inputs : List (List Nat)) (s : HState), s.total_length < cfg.length_mod →
      (inputs.foldl (update_to_buffer_and_process cfg hc) s).total_length =
        (s.total_length + (inputs.map List.length).sum) % cfg.length_mod := by
  intro inputs
  induction inputs with
  | nil =>
    intro s hs
    simp [Nat.mod_eq_of_lt hs]
  | cons x xs ih =>
    intro s hs
    simp only [List.foldl_cons, List.map_cons, List.sum_cons]
    rw [ih _ (update_total_lt cfg hc s x), update_total, Nat.mod_add_mod]
    congr 1
    omega

/-- Folding updates preserves the `block_used` invariant. -/
theorem foldl_update_block_used (cfg : Config) (hc : 0 < cfg.block_size_bytes) :
    ∀ (inputs : List (List Nat)) (s : HState), s.block_used < cfg.block_size_bytes →
      (inputs.foldl (update_to_buffer_and_process cfg hc) s).block_used <
        cfg.block_size_bytes := by
  intro inputs
  induction inputs with
  | nil => intro s hs; exact hs
  | cons x xs ih =>
    intro s hs
    exact ih _ (update_block_used_lt cfg hc s x)

/-- Folding updates preserves the block buffer length. -/
theorem foldl_update_block_length (cfg : Config) (hc : 0 < cfg.block_size_bytes) :
    ∀ (inputs : List (List Nat)) (s : HState),
      (inputs.foldl (update_to_buffer_and_process cfg hc) s).block.length =
        s.block.length := by
  intro inputs
  induction inputs with
  | nil => intro s; rfl
  | cons x xs ih =>
    intro s
    rw [List.foldl_cons, ih, update_block_length]

/-- The byte counter of any full session, before reduction by the overflow
hypothesis. -/
theorem run_updates_total (cfg : Config) (hc : 0 < cfg.block_size_bytes)
    (inputs : List (List Nat)) :
    (run_updates cfg hc inputs).total_length =
      (inputs.map List.length).sum % cfg.length_mod := by
  unfold run_updates
  rw [foldl_update_total cfg hc inputs _ (length_mod_pos cfg)]
  simp [internal_hasher_init]

/-- C2: after any sequence of update calls on a fresh hasher, `total_length`
(and so `size()`) equals the summed byte lengths of the inputs, independent
of block alignment, as long as the sum is representable in `length_type`. -/
theorem total_length_is_input_sum (cfg : Config) (hc : 0 < cfg.block_size_bytes)
    (inputs : List (List Nat)) (h : (inputs.map List.length).sum < cfg.length_mod) :
    (run_updates cfg hc inputs).total_length = (inputs.map List.length).sum ∧
    hasher_size (run_updates cfg hc inputs) = (inputs.map List.length).sum := by
  have := run_updates_total cfg hc inputs
  rw [Nat.mod_eq_of_lt h] at this
  exact ⟨this, this⟩

/-- Witness for C2: a fresh SHA-256 hasher updated with a 3-byte and then a
2-byte input reports 5 absorbed bytes. -/
theorem total_length_is_input_sum_witness :
    (run_updates sha256_config sha256_bs_pos [[1, 2, 3], [4, 5]]).total_length = 5 ∧
    hasher_size (run_updates sha256_config sha256_bs_pos [[1, 2, 3], [4, 5]]) = 5 :=
  total_length_is_input_sum sha256_config sha256_bs_pos [[1, 2, 3], [4, 5]] (by decide)

/-- C8: `block_used < block_size_bytes` holds at every externally observable
point: after construction followed by any sequence of updates; and an update
whose input exactly fills the remaining space compresses the block and
resets `block_used` to zero. -/
theorem block_used_invariant (cfg : Config) (hc : 0 < cfg.block_size_bytes)
    (inputs : List (List Nat)) (s : HState) (input : List Nat)
    (hs : s.block_used < cfg.block_size_bytes)
    (hfill : input.length = cfg.block_size_bytes - s.block_used) :
    (run_updates cfg hc inputs).block_used < cfg.block_size_bytes ∧
    (update_to_buffer_and_process cfg hc s input).block_used = 0 := by
  constructor
  · exact foldl_update_block_used cfg hc inputs _ hc
  · rw [update_flush cfg hc s input (by omega)]
    rw [update_fill cfg hc _ _ (by simp only [List.length_drop]; omega)]
    simp only [List.length_drop]
    omega

/-- Witness for C8: two updates on a fresh SHA-256 hasher keep the invariant,
and a 64-byte update on the fresh hasher leaves an empty buffer. -/
theorem block_used_invariant_witness :
    (run_updates sha256_config sha256_bs_pos [[1], [2, 3]]).block_used <
      sha256_config.block_size_bytes ∧
    (update_to_buffer_and_process sha256_config sha256_bs_pos
      (internal_hasher_init sha256_config) (List.replicate 64 7)).block_used = 0 :=
  block_used_invariant sha256_config sha256_bs_pos [[1], [2, 3]]
    (internal_hasher_init sha256_config) (List.replicate 64 7) (by decide) (by decide)



/-- C9: the string-literal `update` overload absorbs all bytes of the array
except the trailing element (the implicit terminator), so a literal holding
`data` plus its terminator hashes exactly like `data`, and `total_length`
grows by the literal's array length minus one. -/
theorem update_literal_drops_terminator (cfg : Config) (hc : 0 < cfg.block_size_bytes)
    (s : HState) (data : List Nat) (hov : s.total_length + data.length < cfg.length_mod) :
    update_literal cfg hc s (data ++ [0]) = update_to_buffer_and_process cfg hc s data ∧
    (update_literal cfg hc s (data ++ [0])).total_length = s.total_length + data.length := by
  have hlen : (data ++ [0]).length - 1 = data.length := by simp
  have h1 : (data ++ [0]).take ((data ++ [0]).length - 1) = data := by
    rw [hlen, List.take_left]
  refine ⟨?_, ?_⟩
  · unfold update_literal
    rw [h1]
  · unfold update_literal
    rw [h1, update_total, Nat.mod_eq_of_lt hov]

/-- Witness for C9: on a fresh SHA-256 hasher, the literal containing
`"abc"` and its terminator hashes like the three bytes `97, 98, 99`. -/
theorem update_literal_drops_terminator_witness :
    update_literal sha256_config sha256_bs_pos (internal_hasher_init sha256_config)
        [97, 98, 99, 0] =
      update_to_buffer_and_process sha256_config sha256_bs_pos
        (internal_hasher_init sha256_config) [97, 98, 99] ∧
    (update_literal sha256_config sha256_bs_pos (internal_hasher_init sha256_config)
        [97, 98, 99, 0]).total_length = 3 :=
  update_literal_drops_terminator sha256_config sha256_bs_pos
    (internal_hasher_init sha256_config) [97, 98, 99] (by decide)

/-- The finalizer never touches the byte counter. -/
theorem finalize_total (cfg : Config) (s : HState) :
    (finalize_buffer cfg s).total_length = s.total_length := by
  unfold finalize_buffer
  split <;> rfl

/-- The finalizer never touches `block_used`. -/
theorem finalize_block_used (cfg : Config) (s : HState) :
    (finalize_buffer cfg s).block_used = s.block_used := by
  unfold finalize_buffer
  split <;> rfl

/-- C10: finalization is frame-preserving on the byte counter: it changes
only the hash words and the block buffer, leaving `total_length` and
`block_used` intact, so `size()` after `final` still reports the raw bytes
absorbed by the update calls. -/
theorem finalize_preserves_length_counter (cfg : Config) (hc : 0 < cfg.block_size_bytes)
    (inputs : List (List Nat)) (s : HState)
    (hsum : (inputs.map List.length).sum < cfg.length_mod) :
    (finalize_buffer cfg s).total_length = s.total_length ∧
    (finalize_buffer cfg s).block_used = s.block_used ∧
    hasher_size (finalize_buffer cfg (run_updates cfg hc inputs)) =
      (inputs.map List.length).sum := by
  refine ⟨finalize_total cfg s, finalize_block_used cfg s, ?_⟩
  show (finalize_buffer cfg (run_updates cfg hc inputs)).total_length = _
  rw [finalize_total, run_updates_total, Nat.mod_eq_of_lt hsum]

/-- Witness for C10 on a fresh SHA-256 hasher fed 2 + 1 bytes. -/
theorem finalize_preserves_length_counter_witness :
    (finalize_buffer sha256_config (internal_hasher_init sha256_config)).total_length =
      (internal_hasher_init sha256_config).total_length ∧
    (finalize_buffer sha256_config (internal_hasher_init sha256_config)).block_used =
      (internal_hasher_init sha256_config).block_used ∧
    hasher_size (finalize_buffer sha256_config
      (run_updates sha256_config sha256_bs_pos [[9, 8], [7]])) = 3 :=
  finalize_preserves_length_counter sha256_config sha256_bs_pos [[9, 8], [7]]
    (internal_hasher_init sha256_config) (by decide)

/-- Updating with the empty input is a no-op on reachable states. -/
theorem update_nil (cfg : Config) (hc : 0 < cfg.block_size_bytes) (s : HState)
    (ht : s.total_length < cfg.length_mod) (hs : s.block_used < cfg.block_size_bytes) :
    update_to_buffer_and_process cfg hc s [] = s := by
  rw [update_fill cfg hc s [] (by simp only [List.length_nil]; omega)]
  rw [byte_copy_nil]
  simp only [List.length_nil, Nat.add_zero, Nat.mod_eq_of_lt ht]

/-- Splitting one update into two consecutive updates gives the same state:
the key algebraic step behind chunking independence. -/
theorem update_append (cfg : Config) (hc : 0 < cfg.block_size_bytes) :
    ∀ (a : List Nat) (s : HState) (b : List Nat), s.block_used < cfg.block_size_bytes →
      update_to_buffer_and_process cfg hc s (a ++ b) =
        update_to_buffer_and_process cfg hc
          (update_to_buffer_and_process cfg hc s a) b := by
  have H : ∀ (n : Nat) (a : List Nat), a.length = n →
      ∀ (s : HState) (b : List Nat), s.block_used < cfg.block_size_bytes →
        update_to_buffer_and_process cfg hc s (a ++ b) =
          update_to_buffer_and_process cfg hc
            (update_to_buffer_and_process cfg hc s a) b := by
    intro n
    induction n using Nat.strong_induction_on with
    | _ n ihn =>
      intro a ha s b hs
      by_cases hfit : a.length < cfg.block_size_bytes - s.block_used
      · rw [update_fill cfg hc s a hfit]
        by_cases hfit2 : (a ++ b).length < cfg.block_size_bytes - s.block_used
        · rw [update_fill cfg hc s (a ++ b) hfit2]
          rw [update_fill cfg hc _ b (by
            show b.length < cfg.block_size_bytes - (s.block_used + a.length)
            simp only [List.length_append] at hfit2
            omega)]
          dsimp only
          rw [byte_copy_append, Nat.mod_add_mod]
          simp only [List.length_append, Nat.add_assoc]
        · rw [update_flush cfg hc s (a ++ b) hfit2]
          rw [update_flush cfg hc _ b (by
            show ¬ b.length < cfg.block_size_bytes - (s.block_used + a.length)
            simp only [List.length_append] at hfit2
            omega)]
          dsimp only
          have hrem : cfg.block_size_bytes - (s.block_used + a.length) =
              cfg.block_size_bytes - s.block_used - a.length := by omega
          have htake : (a ++ b).take (cfg.block_size_bytes - s.block_used) =
              a ++ b.take (cfg.block_size_bytes - s.block_used - a.length) := by
            rw [List.take_append_eq_append_take, List.take_of_length_le (by omega)]
          have hdrop : (a ++ b).drop (cfg.block_size_bytes - s.block_used) =
              b.drop (cfg.block_size_bytes - s.block_used - a.length) := by
            rw [List.drop_append_eq_append_drop, List.drop_eq_nil_of_le (by omega)]
            simp
          rw [htake, hdrop, byte_copy_append, hrem, Nat.mod_add_mod]
          simp only [List.length_append, Nat.add_assoc]
      · rw [update_flush cfg hc s a hfit]
        rw [update_flush cfg hc s (a ++ b) (by
          simp only [List.length_append]
          omega)]
        have htake : (a ++ b).take (cfg.block_size_bytes - s.block_used) =
            a.take (cfg.block_size_bytes - s.block_used) := by
          rw [List.take_append_eq_append_take]
          have h0 : cfg.block_size_bytes - s.block_used - a.length = 0 := by omega
          rw [h0]
          simp
        have hdrop : (a ++ b).drop (cfg.block_size_bytes - s.block_used) =
            a.drop (cfg.block_size_bytes - s.block_used) ++ b := by
          rw [List.drop_append_eq_append_drop]
          have h0 : cfg.block_size_bytes - s.block_used - a.length = 0 := by omega
          rw [h0]
          simp
        rw [htake, hdrop]
        exact ihn (a.drop (cfg.block_size_bytes - s.block_used)).length
          (by simp only [List.length_drop]; omega)
          (a.drop (cfg.block_size_bytes - s.block_used)) rfl _ b (by dsimp only; omega)
  intro a s b hs
  exact H a.length a rfl s b hs

/-- Folding a partition through successive updates equals one update on the
concatenation. -/
theorem foldl_update_flatten (cfg : Config) (hc : 0 < cfg.block_size_bytes) :
    ∀ (parts : List (List Nat)) (s : HState), s.block_used < cfg.block_size_bytes →
      s.total_length < cfg.length_mod →
      parts.foldl (update_to_buffer_and_process cfg hc) s =
        update_to_buffer_and_process cfg hc s parts.flatten := by
  intro parts
  induction parts with
  | nil =>
    intro s h1 h2
    simp only [List.foldl_nil, List.flatten_nil]
    exact (update_nil cfg hc s h2 h1).symm
  | cons p ps ih =>
    intro s h1 h2
    simp only [List.foldl_cons, List.flatten_cons]
    rw [ih _ (update_block_used_lt cfg hc s p) (update_total_lt cfg hc s p)]
    exact (update_append cfg hc p s ps.flatten h1).symm

/-- C1: chunking independence. For every partition of a byte sequence into
consecutive update calls on a fresh hasher, the digest produced by `final`
equals the digest of a single update call carrying the whole sequence. -/
theorem chunking_independence (cfg : Config) (hc : 0 < cfg.block_size_bytes)
    (parts : List (List Nat)) :
    final_digest cfg (run_updates cfg hc parts) =
      final_digest cfg (update_to_buffer_and_process cfg hc
        (internal_hasher_init cfg) parts.flatten) := by
  unfold run_updates
  rw [foldl_update_flatten cfg hc parts (internal_hasher_init cfg) hc (length_mod_pos cfg)]

/-- Witness for C1: hashing `"a" / "bc"` in two chunks equals hashing
`"abc"` at once with SHA-256. -/
theorem chunking_independence_witness :
    final_digest sha256_config (run_updates sha256_config sha256_bs_pos [[97], [98, 99]]) =
      final_digest sha256_config (update_to_buffer_and_process sha256_config sha256_bs_pos
        (internal_hasher_init sha256_config) ([[97], [98, 99]] : List (List Nat)).flatten) :=
  chunking_independence sha256_config sha256_bs_pos [[97], [98, 99]]



/-- Each expansion step appends exactly one word. -/
theorem staging_expand_length (cfg : Config) (w : List Nat) (i : Nat) :
    (staging_expand cfg w i).length = w.length + 1 := by
  simp [staging_expand]

/-- The expansion fold adds one word per processed index. -/
theorem staging_foldl_length (cfg : Config) : ∀ (m k : Nat) (w : List Nat),
    ((List.range' k m).foldl (staging_expand cfg) w).length = w.length + m := by
  intro m
  induction m with
  | zero => intro k w; rfl
  | succ m ih =>
    intro k w
    rw [List.range'_succ, List.foldl_cons, ih, staging_expand_length]
    omega

/-- Entries already present are unchanged by the expansion fold. -/
theorem staging_foldl_getD_lt (cfg : Config) : ∀ (m k : Nat) (w : List Nat) (j : Nat),
    j < w.length →
    ((List.range' k m).foldl (staging_expand cfg) w).getD j 0 = w.getD j 0 := by
  intro m
  induction m with
  | zero => intro k w j hj; rfl
  | succ m ih =>
    intro k w j hj
    rw [List.range'_succ, List.foldl_cons]
    rw [ih _ _ j (by rw [staging_expand_length]; omega)]
    unfold staging_expand
    exact List.getD_append _ _ _ _ hj

/-- The entry just appended by one expansion step. -/
theorem staging_expand_getD_last (cfg : Config) (w : List Nat) (k : Nat)
    (hw : w.length = k) :
    (staging_expand cfg w k).getD k 0 = staging_value cfg w k := by
  unfold staging_expand
  rw [List.getD_append_right _ _ _ _ (by omega)]
  rw [hw]
  simp

/-- The expansion value only depends on the four read-back entries. -/
theorem staging_value_congr (cfg : Config) (l₁ l₂ : List Nat) (i : Nat)
    (h16 : l₁.getD (i - 16) 0 = l₂.getD (i - 16) 0)
    (h15 : l₁.getD (i - 15) 0 = l₂.getD (i - 15) 0)
    (h7 : l₁.getD (i - 7) 0 = l₂.getD (i - 7) 0)
    (h2 : l₁.getD (i - 2) 0 = l₂.getD (i - 2) 0) :
    staging_value cfg l₁ i = staging_value cfg l₂ i := by
  unfold staging_value
  rw [h16, h15, h7, h2]

/-- Every entry the expansion fold appends satisfies the expansion
recurrence, read back from the final list. -/
theorem staging_foldl_rec (cfg : Config) : ∀ (m k : Nat) (w : List Nat), w.length = k →
    ∀ j, k ≤ j → j < k + m → 1 ≤ j →
      ((List.range' k m).foldl (staging_expand cfg) w).getD j 0 =
        staging_value cfg ((List.range' k m).foldl (staging_expand cfg) w) j := by
  intro m
  induction m with
  | zero => intro k w hw j h1 h2 h3; omega
  | succ m ih =>
    intro m' w hw j h1 h2 h3
    rw [List.range'_succ, List.foldl_cons]
    rcases Nat.lt_or_ge j (m' + 1) with hj | hj
    · have hjk : j = m' := by omega
      subst hjk
      rw [staging_foldl_getD_lt cfg m (j + 1) _ j (by rw [staging_expand_length]; omega)]
      rw [staging_expand_getD_last cfg w j hw]
      apply staging_value_congr
      all_goals
        rw [staging_foldl_getD_lt cfg m (j + 1) _ _ (by rw [staging_expand_length]; omega)]
        unfold staging_expand
        rw [List.getD_append _ _ _ _ (by omega)]
    · exact ih (m' + 1) _ (by rw [staging_expand_length, hw]) j hj (by omega) h3

/-- C5: message-schedule expansion. In the schedule built from a block, the
first `first_part_size` entries decode the block as big-endian words in
order, and every later entry up to `staging_size` equals
`w[i-16] + s0 + w[i-7] + s1` modulo the word width, with `s0`/`s1` drawn
from `staging_constants` as in the specification. -/
theorem build_staging_spec (cfg : Config) (chunk : List Nat) (i j : Nat)
    (hi : i < cfg.first_part_size)
    (hj1 : cfg.first_part_size ≤ j) (hj2 : j < cfg.staging_size) (hj3 : 1 ≤ j) :
    (build_staging cfg chunk).getD i 0 =
      cast_from_bytes cfg.word_bytes
        ((chunk.drop (i * cfg.word_bytes)).take cfg.word_bytes) ∧
    (build_staging cfg chunk).getD j 0 =
      staging_value cfg (build_staging cfg chunk) j := by
  unfold build_staging
  constructor
  · rw [staging_foldl_getD_lt cfg _ _ _ i (by
      simp only [List.length_map, List.length_range]
      exact hi)]
    rw [List.getD_eq_getElem _ _ (by
      simp only [List.length_map, List.length_range]
      exact hi)]
    simp
  · exact staging_foldl_rec cfg _ _ _ (by
      simp only [List.length_map, List.length_range]) j hj1 (by omega) hj3

/-- Witness for C5 on a concrete 64-byte SHA-256 block: entry 0 decodes the
first word, entry 16 satisfies the recurrence. -/
theorem build_staging_spec_witness :
    (build_staging sha256_config (List.range 64)).getD 0 0 =
      cast_from_bytes sha256_config.word_bytes
        (((List.range 64).drop (0 * sha256_config.word_bytes)).take
          sha256_config.word_bytes) ∧
    (build_staging sha256_config (List.range 64)).getD 16 0 =
      staging_value sha256_config (build_staging sha256_config (List.range 64)) 16 :=
  build_staging_spec sha256_config (List.range 64) 0 16
    (by decide) (by decide) (by decide) (by decide)



/-- One compression round exactly as the spec writes it: the simultaneous
assignment `h,g,f,e,d,c,b,a = g,f,e,(d+temp1),c,b,a,(temp1+temp2)` on a
named 8-tuple `(a,b,c,d,e,f,g,h)` of working variables, additions wrapping
at the word width. -/
def spec_round (cfg : Config) (wi ki : Nat)
    (t : Nat × Nat × Nat × Nat × Nat × Nat × Nat × Nat) :
    Nat × Nat × Nat × Nat × Nat × Nat × Nat × Nat :=
  match t with
  | (a, b, c, d, e, f, g, h) =>
    let S1 := rotr cfg.word_bits e (cfg.compress_constants.getD 0 0) ^^^
              rotr cfg.word_bits e (cfg.compress_constants.getD 1 0) ^^^
              rotr cfg.word_bits e (cfg.compress_constants.getD 2 0)
    let choice := (e &&& f) ^^^ (((2 ^ cfg.word_bits - 1) ^^^ e) &&& g)
    let temp1 := (h + S1 + choice + ki + wi) % 2 ^ cfg.word_bits
    let S0 := rotr cfg.word_bits a (cfg.compress_constants.getD 3 0) ^^^
              rotr cfg.word_bits a (cfg.compress_constants.getD 4 0) ^^^
              rotr cfg.word_bits a (cfg.compress_constants.getD 5 0)
    let majority := (a &&& b) ^^^ (a &&& c) ^^^ (b &&& c)
    let temp2 := (S0 + majority) % 2 ^ cfg.word_bits
    ((temp1 + temp2) % 2 ^ cfg.word_bits, a, b, c,
      (d + temp1) % 2 ^ cfg.word_bits, e, f, g)

/-- The working variables `a..h` of a tuple listed in index order `0..7`. -/
def tuple_to_list (t : Nat × Nat × Nat × Nat × Nat × Nat × Nat × Nat) : List Nat :=
  [t.1, t.2.1, t.2.2.1, t.2.2.2.1, t.2.2.2.2.1, t.2.2.2.2.2.1,
    t.2.2.2.2.2.2.1, t.2.2.2.2.2.2.2]

/-- The loop body of `rounds` agrees with the spec's simultaneous tuple
assignment. -/
theorem compress_step_spec_round (cfg : Config) (wi ki : Nat)
    (t : Nat × Nat × Nat × Nat × Nat × Nat × Nat × Nat) :
    compress_step cfg wi ki (tuple_to_list t) = tuple_to_list (spec_round cfg wi ki t) := by
  obtain ⟨a, b, c, d, e, f, g, h⟩ := t
  rfl

/-- C6: the compression function iterates the spec's working-variable update
for `rounds_number` rounds, with rotation amounts from `compress_constants`
and all additions wrapping, and then adds each final working variable onto
the corresponding old state word (feed-forward, not replacement). -/
theorem rounds_spec (cfg : Config) (w : List Nat) (a b c d e f g h : Nat) :
    rounds cfg w [a, b, c, d, e, f, g, h] =
      List.zipWith (fun x y => (x + y) % 2 ^ cfg.word_bits) [a, b, c, d, e, f, g, h]
        (tuple_to_list ((List.range cfg.rounds_number).foldl
          (fun t i => spec_round cfg (w.getD i 0) (cfg.constants.getD i 0) t)
          (a, b, c, d, e, f, g, h))) := by
  have hfold : (List.range cfg.rounds_number).foldl
      (fun v i => compress_step cfg (w.getD i 0) (cfg.constants.getD i 0) v)
      [a, b, c, d, e, f, g, h] =
      tuple_to_list ((List.range cfg.rounds_number).foldl
        (fun t i => spec_round cfg (w.getD i 0) (cfg.constants.getD i 0) t)
        (a, b, c, d, e, f, g, h)) :=
    List.foldl_hom tuple_to_list
      (fun t i => spec_round cfg (w.getD i 0) (cfg.constants.getD i 0) t)
      (fun v i => compress_step cfg (w.getD i 0) (cfg.constants.getD i 0) v)
      (List.range cfg.rounds_number) (a, b, c, d, e, f, g, h)
      (fun t i => compress_step_spec_round cfg (w.getD i 0) (cfg.constants.getD i 0) t)
  unfold rounds
  rw [hfold]
  rfl



/-- The padded block keeps the block size. -/
theorem pad_block_length (cfg : Config) (blk : List Nat) (used : Nat)
    (hbu : used < cfg.block_size_bytes) (hlen : blk.length = cfg.block_size_bytes) :
    (pad_block cfg blk used).length = cfg.block_size_bytes := by
  unfold pad_block
  simp only [List.length_append, List.length_cons, List.length_take, List.length_replicate]
  omega

/-- C3: finalization padding. Padding writes the byte `0x80` at offset
`block_used`, right after the buffered data, and zero-fills the rest of the
block; the finalizer compresses that block and restarts from an all-zero
block exactly when the free space `block_size_bytes - block_used` is less
than `1 + length_size_bits/8`; in particular, exactly `length_size_bits/8`
free bytes force the extra zero block. -/
theorem finalize_padding_spec (cfg : Config) (s : HState)
    (hbu : s.block_used < cfg.block_size_bytes)
    (hlen : s.block.length = cfg.block_size_bytes) :
    (pad_block cfg s.block s.block_used).take s.block_used = s.block.take s.block_used ∧
    (pad_block cfg s.block s.block_used).getD s.block_used 0 = 128 ∧
    (pad_block cfg s.block s.block_used).drop (s.block_used + 1) =
      List.replicate (cfg.block_size_bytes - s.block_used - 1) 0 ∧
    finalize_buffer cfg s =
      (if cfg.block_size_bytes - s.block_used < 1 + cfg.length_size_bits / 8 then
        { s with
          hash := rounds cfg (build_staging cfg
              (write_length cfg (List.replicate cfg.block_size_bytes 0) s.total_length))
            (rounds cfg (build_staging cfg (pad_block cfg s.block s.block_used)) s.hash)
          block := write_length cfg (List.replicate cfg.block_size_bytes 0) s.total_length }
      else
        { s with
          hash := rounds cfg (build_staging cfg
              (write_length cfg (pad_block cfg s.block s.block_used) s.total_length)) s.hash
          block := write_length cfg (pad_block cfg s.block s.block_used) s.total_length }) ∧
    (cfg.block_size_bytes - s.block_used = cfg.length_size_bits / 8 →
      finalize_buffer cfg s =
        { s with
          hash := rounds cfg (build_staging cfg
              (write_length cfg (List.replicate cfg.block_size_bytes 0) s.total_length))
            (rounds cfg (build_staging cfg (pad_block cfg s.block s.block_used)) s.hash)
          block := write_length cfg (List.replicate cfg.block_size_bytes 0) s.total_length }) := by
  have htakelen : (s.block.take s.block_used).length = s.block_used := by
    simp only [List.length_take]
    omega
  refine ⟨?_, ?_, ?_, ?_, ?_⟩
  · unfold pad_block
    rw [List.take_append_eq_append_take, htakelen, Nat.sub_self, List.take_take]
    simp
  · unfold pad_block
    rw [List.getD_append_right _ _ _ _ (by omega), htakelen, Nat.sub_self]
    simp
  · unfold pad_block
    rw [List.drop_append_eq_append_drop, List.drop_eq_nil_of_le (by omega), htakelen]
    have h1 : s.block_used + 1 - s.block_used = 1 := by omega
    rw [h1]
    simp
  · rfl
  · intro hfree
    show (if cfg.block_size_bytes - s.block_used < 1 + cfg.length_size_bits / 8 then _ else _) = _
    rw [if_pos (by omega)]

/-- Witness for C3, at a state leaving exactly `length_size_bits/8 = 8` free
bytes in a SHA-256 block, which forces the extra zero block. -/
theorem finalize_padding_spec_witness :
    (pad_block sha256_config (List.replicate 64 7) 56).take 56 =
      (List.replicate 64 7 : List Nat).take 56 ∧
    (pad_block sha256_config (List.replicate 64 7) 56).getD 56 0 = 128 ∧
    (pad_block sha256_config (List.replicate 64 7) 56).drop 57 =
      List.replicate (sha256_config.block_size_bytes - 56 - 1) 0 ∧
    finalize_buffer sha256_config
        { hash := [1, 2, 3, 4, 5, 6, 7, 8], total_length := 56,
          block := List.replicate 64 7, block_used := 56 } =
      (if sha256_config.block_size_bytes - 56 < 1 + sha256_config.length_size_bits / 8 then
        { hash := rounds sha256_config (build_staging sha256_config
              (write_length sha256_config (List.replicate sha256_config.block_size_bytes 0) 56))
            (rounds sha256_config (build_staging sha256_config
              (pad_block sha256_config (List.replicate 64 7) 56)) [1, 2, 3, 4, 5, 6, 7, 8])
          total_length := 56
          block := write_length sha256_config
            (List.replicate sha256_config.block_size_bytes 0) 56
          block_used := 56 }
      else
        { hash := rounds sha256_config (build_staging sha256_config
            (write_length sha256_config (pad_block sha256_config (List.replicate 64 7) 56) 56))
            [1, 2, 3, 4, 5, 6, 7, 8]
          total_length := 56
          block := write_length sha256_config
            (pad_block sha256_config (List.replicate 64 7) 56) 56
          block_used := 56 }) ∧
    (sha256_config.block_size_bytes - 56 = sha256_config.length_size_bits / 8 →
      finalize_buffer sha256_config
          { hash := [1, 2, 3, 4, 5, 6, 7, 8], total_length := 56,
            block := List.replicate 64 7, block_used := 56 } =
        { hash := rounds sha256_config (build_staging sha256_config
              (write_length sha256_config (List.replicate sha256_config.block_size_bytes 0) 56))
            (rounds sha256_config (build_staging sha256_config
              (pad_block sha256_config (List.replicate 64 7) 56)) [1, 2, 3, 4, 5, 6, 7, 8])
          total_length := 56
          block := write_length sha256_config
            (List.replicate sha256_config.block_size_bytes 0) 56
          block_used := 56 }) :=
  finalize_padding_spec sha256_config
    { hash := [1, 2, 3, 4, 5, 6, 7, 8], total_length := 56,
      block := List.replicate 64 7, block_used := 56 } (by decide) (by decide)



/-- A value fitting in the low bytes has a big-endian encoding padded with
leading zero bytes. -/
theorem unwrap_high_zeros (v lb : Nat) (hv : v < 2 ^ (8 * lb)) : ∀ d,
    unwrap_bigendian_number (lb + d) v =
      List.replicate d 0 ++ unwrap_bigendian_number lb v := by
  intro d
  induction d with
  | zero => simp
  | succ d ih =>
    rw [show lb + (d + 1) = (lb + d) + 1 from rfl, unwrap_succ, ih]
    have h0 : v >>> ((lb + d) * 8) = 0 := by
      rw [Nat.shiftRight_eq_div_pow]
      apply Nat.div_eq_of_lt
      calc v < 2 ^ (8 * lb) := hv
        _ ≤ 2 ^ ((lb + d) * 8) := Nat.pow_le_pow_right (by norm_num) (by omega)
    rw [h0]
    simp [List.replicate_succ]

/-- If the pre-length zone of the block is zero, the last
`length_size_bits/8` bytes after `write_length` are the full big-endian
length field. -/
theorem write_length_drop (cfg : Config) (b : List Nat) (total : Nat)
    (hblen : b.length = cfg.block_size_bytes)
    (hov : total * 8 < cfg.length_mod)
    (hlb : cfg.length_bytes ≤ cfg.length_size_bits / 8)
    (hbs : cfg.length_size_bits / 8 ≤ cfg.block_size_bytes)
    (hzero : ∀ p, cfg.block_size_bytes - cfg.length_size_bits / 8 ≤ p →
      p < cfg.block_size_bytes - cfg.length_bytes → b.getD p 0 = 0) :
    (write_length cfg b total).drop (cfg.block_size_bytes - cfg.length_size_bits / 8) =
      unwrap_bigendian_number (cfg.length_size_bits / 8) (total * 8) := by
  unfold write_length
  rw [Nat.mod_eq_of_lt hov, hblen]
  rw [List.drop_append_eq_append_drop]
  have htl : (b.take (cfg.block_size_bytes - cfg.length_bytes)).length =
      cfg.block_size_bytes - cfg.length_bytes := by
    simp only [List.length_take]
    omega
  rw [htl]
  have h2 : cfg.block_size_bytes - cfg.length_size_bits / 8 -
      (cfg.block_size_bytes - cfg.length_bytes) = 0 := by omega
  rw [h2, List.drop_zero]
  have hfirst : (b.take (cfg.block_size_bytes - cfg.length_bytes)).drop
      (cfg.block_size_bytes - cfg.length_size_bits / 8) =
      List.replicate (cfg.length_size_bits / 8 - cfg.length_bytes) 0 := by
    apply List.ext_getElem
    · simp only [List.length_drop, List.length_take, List.length_replicate]
      omega
    · intro q h1 h2
      rw [List.getElem_drop, List.getElem_take, List.getElem_replicate]
      rw [← List.getD_eq_getElem _ 0 (by
        simp only [List.length_drop, List.length_take] at h1
        omega)]
      apply hzero
      · omega
      · simp only [List.length_drop, List.length_take, List.length_replicate] at h1 h2
        omega
  rw [hfirst]
  have hL : cfg.length_bytes + (cfg.length_size_bits / 8 - cfg.length_bytes) =
      cfg.length_size_bits / 8 := by omega
  rw [← hL, unwrap_high_zeros (total * 8) cfg.length_bytes hov
    (cfg.length_size_bits / 8 - cfg.length_bytes)]
  have hA : cfg.length_bytes + (cfg.length_size_bits / 8 - cfg.length_bytes) -
      cfg.length_bytes = cfg.length_size_bits / 8 - cfg.length_bytes := by omega
  rw [hA]

/-- C4: in the last block processed by `finalize_buffer`, the final
`length_size_bits/8` bytes hold `total_length * 8` encoded as a big-endian
integer of `length_size_bits` bits, provided the bit count fits in
`length_type` — whether or not `sizeof(length_type)` equals
`length_size_bits/8`. -/
theorem finalize_length_suffix (cfg : Config) (s : HState)
    (hbu : s.block_used < cfg.block_size_bytes)
    (hlen : s.block.length = cfg.block_size_bytes)
    (hov : s.total_length * 8 < cfg.length_mod)
    (hlb : cfg.length_bytes ≤ cfg.length_size_bits / 8)
    (hbs : cfg.length_size_bits / 8 ≤ cfg.block_size_bytes) :
    (finalize_buffer cfg s).block.drop
        (cfg.block_size_bytes - cfg.length_size_bits / 8) =
      unwrap_bigendian_number (cfg.length_size_bits / 8) (s.total_length * 8) := by
  unfold finalize_buffer
  split
  · dsimp only
    apply write_length_drop cfg _ _ (by simp) hov hlb hbs
    intro p hp1 hp2
    rw [List.getD_eq_getElem _ _ (by simp only [List.length_replicate]; omega)]
    rw [List.getElem_replicate]
  · next hcond =>
    dsimp only
    apply write_length_drop cfg _ _ (pad_block_length cfg s.block s.block_used hbu hlen)
      hov hlb hbs
    intro p hp1 hp2
    unfold pad_block
    have htakelen : (s.block.take s.block_used).length = s.block_used := by
      simp only [List.length_take]
      omega
    rw [List.getD_append_right _ _ _ _ (by omega), htakelen]
    have hp3 : p - s.block_used = (p - s.block_used - 1) + 1 := by omega
    rw [hp3, List.getD_cons_succ]
    rw [List.getD_eq_getElem _ _ (by simp only [List.length_replicate]; omega)]
    rw [List.getElem_replicate]

/-- Witness for C4 at a SHA-256 state with 5 buffered bytes and 5 absorbed
bytes. -/
theorem finalize_length_suffix_witness :
    (finalize_buffer sha256_config
        { hash := [1, 2, 3, 4, 5, 6, 7, 8], total_length := 5,
          block := List.replicate 64 9, block_used := 5 }).block.drop
        (sha256_config.block_size_bytes - sha256_config.length_size_bits / 8) =
      unwrap_bigendian_number (sha256_config.length_size_bits / 8) (5 * 8) :=
  finalize_length_suffix sha256_config
    { hash := [1, 2, 3, 4, 5, 6, 7, 8], total_length := 5,
      block := List.replicate 64 9, block_used := 5 }
    (by decide) (by decide) (by decide) (by decide) (by decide)



set_option maxRecDepth 10000 in
/-- Known-answer check: the published SHA-256 digest of the empty input,
obtained by finalizing a fresh hasher. -/
theorem sha256_empty_vector :
    final_digest sha256_config (internal_hasher_init sha256_config) =
    [0xe3, 0xb0, 0xc4, 0x42, 0x98, 0xfc, 0x1c, 0x14, 0x9a, 0xfb, 0xf4, 0xc8,
     0x99, 0x6f, 0xb9, 0x24, 0x27, 0xae, 0x41, 0xe4, 0x64, 0x9b, 0x93, 0x4c,
     0xa4, 0x95, 0x99, 0x1b, 0x78, 0x52, 0xb8, 0x55] := by
  decide

set_option maxRecDepth 10000 in
/-- Known-answer check: the published SHA-256 digest of `"abc"`. -/
theorem sha256_abc_vector :
    final_digest sha256_config (update_to_buffer_and_process sha256_config sha256_bs_pos
      (internal_hasher_init sha256_config) [97, 98, 99]) =
    [0xba, 0x78, 0x16, 0xbf, 0x8f, 0x01, 0xcf, 0xea, 0x41, 0x41, 0x40, 0xde,
     0x5d, 0xae, 0x22, 0x23, 0xb0, 0x03, 0x61, 0xa3, 0x96, 0x17, 0x7a, 0x9c,
     0xb4, 0x10, 0xff, 0x61, 0xf2, 0x00, 0x15, 0xad] := by
  rw [update_fill sha256_config sha256_bs_pos _ _ (by decide)]
  decide

set_option maxRecDepth 10000 in
/-- Known-answer check at the two-block padding boundary: 56 input bytes
leave exactly `length_size_bits/8` free bytes, forcing the extra zero block;
the digest matches a reference SHA-256 implementation on that input. -/
theorem sha256_boundary_vector :
    final_digest sha256_config (update_to_buffer_and_process sha256_config sha256_bs_pos
      (internal_hasher_init sha256_config) (List.replicate 56 97)) =
    [0xb3, 0x54, 0x39, 0xa4, 0xac, 0x6f, 0x09, 0x48, 0xb6, 0xd6, 0xf9, 0xe3,
     0xc6, 0xaf, 0x0f, 0x5f, 0x59, 0x0c, 0xe2, 0x0f, 0x1b, 0xde, 0x70, 0x90,
     0xef, 0x79, 0x70, 0x68, 0x6e, 0xc6, 0x73, 0x8a] := by
  rw [update_fill sha256_config sha256_bs_pos _ _ (by decide)]
  decide

end cthash
